import Mathlib

/-!  Verification of the work-schedule generator (`src/app.js`).

The file shallowly embeds the schedule-generation core of the repository:
calendar construction and week partitioning, the off-day role rotation,
the permutation search with its balance score, and the per-day commit of
shift assignments.  Theorems about the claims follow the definitions.  -/

namespace WorkSchedule

/-!  ## Calendar arithmetic

`generateSchedule` obtains the number of days in the month from
`new Date(year, month, 0).getDate()` and the day-of-week of each day from
`new Date(year, month - 1, d).getDay()`.  JavaScript `Date` implements the
proleptic Gregorian calendar, which we reproduce here: `daysInMonth` from the
Gregorian leap rule, and `dayOfWeek` by counting days from the anchor
Jan 1 of year 0, which is a Saturday (day-of-week 6, with 0 = Sunday).  -/

def isLeapYear (y : Nat) : Bool :=
  y % 4 == 0 && (y % 100 != 0 || y % 400 == 0)

def monthLengths (y : Nat) : List Nat :=
  [31, if isLeapYear y then 29 else 28, 31, 30, 31, 30, 31, 31, 30, 31, 30, 31]

/-- Days in the 1-indexed month `m` of year `y` (`new Date(year, month, 0).getDate()`). -/
def daysInMonth (y m : Nat) : Nat := (monthLengths y).getD (m - 1) 0

/-- Number of leap years among the proleptic-Gregorian years `0, 1, ..., y-1`
(multiples of 4 in `[0, y)`, minus multiples of 100, plus multiples of 400). -/
def leapsBefore (y : Nat) : Nat := (y + 3) / 4 - (y + 99) / 100 + (y + 399) / 400

/-- Days from Jan 1 of year 0 to Jan 1 of year `y`. -/
def daysBeforeYear (y : Nat) : Nat := 365 * y + leapsBefore y

/-- Days from the first of January to the first of 1-indexed month `m`, within year `y`. -/
def daysBeforeMonth (y m : Nat) : Nat := ((monthLengths y).take (m - 1)).sum

/-- Day of week (0 = Sunday .. 6 = Saturday) of day `d` of 1-indexed month `m` of
year `y`, as computed by `new Date(year, month - 1, d).getDay()`. -/
def dayOfWeek (y m d : Nat) : Nat :=
  (daysBeforeYear y + daysBeforeMonth y m + (d - 1) + 6) % 7

/-!  ## Data model -/

/-- One entry of the `days` array: `{ date: d, dayOfWeek: ... }`. -/
structure Day where
  date : Nat
  dayOfWeek : Nat
deriving Repr, DecidableEq

/-- One entry of the `SHIFTS` table. -/
structure Shift where
  id : Nat
  label : String
  time : String
deriving Repr, DecidableEq

def SHIFTS : List Shift :=
  [⟨7, "7시", "07:00~15:00"⟩, ⟨9, "9시", "09:00~17:00"⟩, ⟨13, "1시", "13:00~21:00"⟩]

/-- The `OFF_PATTERNS` table: for each role, the days-of-week on which its holder rests. -/
def OFF_PATTERNS : List (List Nat) :=
  [[0, 1], [2, 3], [4, 5], [6]]

/-- One committed day: the off worker (an `Int`, since the source initialises it with
the sentinel `-1`) and the worker → shift-id pairs in insertion order. -/
structure DaySchedule where
  off : Int
  shifts : List (Nat × Nat)
deriving Repr, DecidableEq

/-- The mutable state of one `generateSchedule` call: the running `shiftCounts`
matrix (4 workers × 3 shift slots) and the schedule entries committed so far. -/
structure GenState where
  counts : List (List Nat)
  sched : List (Nat × DaySchedule)
deriving Repr, DecidableEq

/-!  ## Calendar partitioning (`generateSchedule` lines 102–118) -/

/-- The `days` array: `{date: d, dayOfWeek}` for `d = 1 .. daysInMonth`. -/
def buildDays (y m : Nat) : List Day :=
  (List.range (daysInMonth y m)).map (fun i => ⟨i + 1, dayOfWeek y m (i + 1)⟩)

/-- The week-grouping loop: before a Sunday, flush the current week unless it is
empty; after the loop flush the remaining days. -/
def groupWeeksAux (weeks : List (List Day)) (currentWeek : List Day) :
    List Day → List (List Day)
  | [] => if currentWeek = [] then weeks else weeks ++ [currentWeek]
  | day :: rest =>
    if day.dayOfWeek = 0 ∧ currentWeek ≠ [] then
      groupWeeksAux (weeks ++ [currentWeek]) [day] rest
    else
      groupWeeksAux weeks (currentWeek ++ [day]) rest

def groupWeeks (days : List Day) : List (List Day) := groupWeeksAux [] [] days

/-!  ## Off-worker determination (`generateSchedule` lines 135–142) -/

/-- The scan `for (w = 0..3) { role = (w + wi) % 4; if (OFF_PATTERNS[role].includes(dow))
{ offWorker = w; break } }`, starting from the sentinel `-1`. -/
def findOffWorker (wi dow : Nat) : Int :=
  match (List.range 4).find?
      (fun w => (OFF_PATTERNS.getD ((w + wi) % 4) []).contains dow) with
  | some w => (w : Int)
  | none => -1

/-- The working workers: `[0, 1, 2, 3].filter(w => w !== offWorker)`. -/
def workingWorkers (off : Int) : List Nat :=
  ([0, 1, 2, 3] : List Nat).filter (fun w => (w : Int) != off)

/-!  ## Permutation enumeration (`permutations`, lines 190–200) -/

/-- Removal of index `i`: `[...arr.slice(0, i), ...arr.slice(i + 1)]`. -/
def removeAt (arr : List Nat) (i : Nat) : List Nat := arr.take i ++ arr.drop (i + 1)

/-- Body of the `permutations` function of the source, which recurses on a strictly shorter array.
We render the recursion with a fuel argument that always equals the array length,
so that the definition is structural and computes by kernel reduction. -/
def permsAux : Nat → List Nat → List (List Nat)
  | 0, arr => [arr]
  | fuel + 1, arr =>
    if arr.length ≤ 1 then [arr]
    else
      (List.range arr.length).flatMap (fun i =>
        (permsAux fuel (removeAt arr i)).map (fun perm => arr.getD i 0 :: perm))

/-- All permutations of `arr`, picking each remaining element in
ascending index order. -/
def permutations (arr : List Nat) : List (List Nat) := permsAux arr.length arr

/-!  ## Balance score (`generateSchedule` lines 156–167)

The source computes, in floating point,
`score = Σ_s shiftCounts[perm[s]][s] + Σ_s (max - min of shiftCounts[perm[s]]) * 0.1`.
In exact arithmetic every such score is `base + spread/10` with `base`, `spread`
natural numbers, so comparisons between scores coincide with comparisons between
the natural numbers `10*base + spread`; the algorithm below uses that scaled
representation, and `permScoreQ` is the direct rational transliteration, with a
bridging lemma proved further down.  -/

/-- The spread maximum `Math.max(...row)` for a row of naturals (0 on the empty row). -/
def mathMax (l : List Nat) : Nat :=
  match l with
  | [] => 0
  | h :: t => t.foldl Nat.max h

/-- The spread minimum `Math.min(...row)` for a row of naturals (0 on the empty row). -/
def mathMin (l : List Nat) : Nat :=
  match l with
  | [] => 0
  | h :: t => t.foldl Nat.min h

/-- Ten times the permutation score: `10 * Σ_s counts[perm[s]][s] + Σ_s (max - min)`. -/
def permScore10 (counts : List (List Nat)) (perm : List Nat) : Nat :=
  10 * (List.range 3).foldl
      (fun acc s => acc + (counts.getD (perm.getD s 0) []).getD s 0) 0
    + (List.range 3).foldl
      (fun acc s =>
        acc + (mathMax (counts.getD (perm.getD s 0) [])
                - mathMin (counts.getD (perm.getD s 0) []))) 0

/-- The permutation score exactly as written in the source
(`score += counts[perm[s]][s]`, then `score += (max - min) * 0.1`), in exact
rational arithmetic. -/
def permScoreQ (counts : List (List Nat)) (perm : List Nat) : ℚ :=
  (List.range 3).foldl
    (fun acc s =>
      acc + ((mathMax (counts.getD (perm.getD s 0) []) : ℚ)
              - (mathMin (counts.getD (perm.getD s 0) []) : ℚ)) * (1 / 10))
    ((List.range 3).foldl
      (fun acc s => acc + ((counts.getD (perm.getD s 0) []).getD s 0 : ℚ)) 0)

/-!  ## Best-permutation selection (`generateSchedule` lines 151–172) -/

/-- The selection loop.  `bestScore` starts as `Infinity`, modelled by `none`
(every score compares below it); each permutation with a strictly smaller score
than the running best replaces it. -/
def selectAux (counts : List (List Nat)) :
    List Nat → Option Nat → List (List Nat) → List Nat
  | best, _, [] => best
  | best, bestScore, perm :: rest =>
    match bestScore with
    | none => selectAux counts perm (some (permScore10 counts perm)) rest
    | some bs =>
      if permScore10 counts perm < bs then
        selectAux counts perm (some (permScore10 counts perm)) rest
      else
        selectAux counts best bestScore rest

/-- Value of `bestPerm` after the loop: start from `perms[0]` and `Infinity`. -/
def selectBest (counts : List (List Nat)) (perms : List (List Nat)) : List Nat :=
  selectAux counts (perms.headD []) none perms

/-!  ## Per-day commit (`generateSchedule` lines 131–183) -/

/-- The increment `shiftCounts[w][s]++`. -/
def bumpCount (counts : List (List Nat)) (w s : Nat) : List (List Nat) :=
  counts.set w ((counts.getD w []).set s ((counts.getD w []).getD s 0 + 1))

/-- The body of the per-day loop: find the off worker, pick the best permutation of
the three working workers, record `shifts[bestPerm[s]] = SHIFTS[s].id` and increment
the counts. -/
def processDay (wi : Nat) (st : GenState) (day : Day) : GenState :=
  let offWorker := findOffWorker wi day.dayOfWeek
  let working := workingWorkers offWorker
  let bestPerm := selectBest st.counts (permutations working)
  let shifts := (List.range 3).foldl
    (fun acc s => acc ++ [(bestPerm.getD s 0, (SHIFTS.getD s ⟨0, "", ""⟩).id)]) []
  let counts := (List.range 3).foldl
    (fun acc s => bumpCount acc (bestPerm.getD s 0) s) st.counts
  ⟨counts, st.sched ++ [(day.date, ⟨offWorker, shifts⟩)]⟩

/-- The fresh `shiftCounts` matrix. -/
def initialCounts : List (List Nat) :=
  [[0, 0, 0], [0, 0, 0], [0, 0, 0], [0, 0, 0]]

/-- The generator `generateSchedule(year, month)`: build the days, group them into weeks, then
process every day of every week in order.  The resulting schedule is the list of
`(day.date, DaySchedule)` entries in commit order. -/
def generateSchedule (y m : Nat) : List (Nat × DaySchedule) :=
  let weeks := groupWeeks (buildDays y m)
  ((List.range weeks.length).foldl
      (fun st wi => (weeks.getD wi []).foldl (processDay wi) st)
      ⟨initialCounts, []⟩).sched

/-- The workers in 0..3 whose current role has an off pattern containing `dow`. -/
def matchingWorkers (wi dow : Nat) : List Nat :=
  (List.range 4).filter (fun w => (OFF_PATTERNS.getD ((w + wi) % 4) []).contains dow)

/-- The shifts committed for one day, as a function of the pre-assignment counts
and the off worker (the body of the shift-assignment part of the per-day loop). -/
def dayShiftsOf (counts : List (List Nat)) (off : Int) : List (Nat × Nat) :=
  let bestPerm := selectBest counts (permutations (workingWorkers off))
  (List.range 3).foldl
    (fun acc s => acc ++ [(bestPerm.getD s 0, (SHIFTS.getD s ⟨0, "", ""⟩).id)]) []

/-- The `(weekIndex, day)` pairs processed by `generateSchedule`, in order. -/
def schedulePairs (y m : Nat) : List (Nat × Day) :=
  let weeks := groupWeeks (buildDays y m)
  (List.range weeks.length).flatMap (fun wi => (weeks.getD wi []).map (fun d => (wi, d)))

/-- The invariant of one committed schedule entry: the off worker is one of 0..3,
the three shift values are exactly 7, 9, 13 in slot order, and the workers given
shifts are exactly the three non-off workers. -/
def DayOK (e : Nat × DaySchedule) : Prop :=
  0 ≤ e.2.off ∧ e.2.off < 4
    ∧ e.2.shifts.map Prod.snd = [7, 9, 13]
    ∧ (e.2.shifts.map Prod.fst).Perm (workingWorkers e.2.off)

/-- The running count of shift slot `s` for worker `w`. -/
def shiftCountOf (counts : List (List Nat)) (w s : Nat) : Nat :=
  (counts.getD w []).getD s 0

/-- The max−min spread of the three per-shift counts of worker `w`. -/
def spreadOf (counts : List (List Nat)) (w : Nat) : Nat :=
  mathMax (counts.getD w []) - mathMin (counts.getD w [])

/-- Days-of-week of one full week on which worker `w` is marked off in week `wi`. -/
def weekOffCount (w wi : Nat) : Nat :=
  ((List.range 7).filter (fun dow => findOffWorker wi dow == (w : Int))).length

/-- Days-of-week of one full week on which worker `w` is on duty in week `wi`. -/
def weekOnCount (w wi : Nat) : Nat :=
  ((List.range 7).filter (fun dow => findOffWorker wi dow != (w : Int))).length


theorem permutations_triple (a b c : Nat) :
    permutations [a, b, c] =
      [[a, b, c], [a, c, b], [b, a, c], [b, c, a], [c, a, b], [c, b, a]] := rfl

theorem permsAux_perm : ∀ (fuel : Nat) (arr p : List Nat),
    p ∈ permsAux fuel arr → p.Perm arr := by
  intro fuel
  induction fuel with
  | zero =>
    intro arr p hp
    simp only [permsAux, List.mem_singleton] at hp
    exact hp ▸ List.Perm.refl arr
  | succ fuel ih =>
    intro arr p hp
    simp only [permsAux] at hp
    by_cases hlen : arr.length ≤ 1
    · simp only [hlen, if_true, List.mem_singleton] at hp
      exact hp ▸ List.Perm.refl arr
    · simp only [hlen, if_false, List.mem_flatMap, List.mem_map, List.mem_range] at hp
      obtain ⟨i, hi, q, hq, rfl⟩ := hp
      have h1 : arr.take i ++ arr.drop i = arr := List.take_append_drop i arr
      have h2 : arr.drop i = arr[i] :: arr.drop (i + 1) := List.drop_eq_getElem_cons hi
      have h3 : arr.getD i 0 = arr[i] := by
        rw [List.getD_eq_getElem?_getD, List.getElem?_eq_getElem hi]
        rfl
      have harr : arr.take i ++ arr[i] :: arr.drop (i + 1) = arr := by
        rw [← h2, h1]
      have hrm : (arr.getD i 0 :: removeAt arr i).Perm arr := by
        have hmid : (arr.take i ++ arr[i] :: arr.drop (i + 1)).Perm
            (arr[i] :: (arr.take i ++ arr.drop (i + 1))) := List.perm_middle
        have hfin : (arr[i] :: (arr.take i ++ arr.drop (i + 1))).Perm arr := by
          have h := hmid.symm
          rwa [harr] at h
        have hshape : arr.getD i 0 :: removeAt arr i
            = arr[i] :: (arr.take i ++ arr.drop (i + 1)) := by rw [h3]; rfl
        rw [hshape]
        exact hfin
      exact (List.Perm.cons (arr.getD i 0) (ih _ q hq)).trans hrm

theorem permutations_perm (arr p : List Nat) (hp : p ∈ permutations arr) : p.Perm arr :=
  permsAux_perm arr.length arr p hp


theorem selectAux_spec (counts : List (List Nat)) :
    ∀ (l : List (List Nat)) (best : List Nat) (bs : Nat),
      permScore10 counts best = bs →
      (∀ q ∈ l, permScore10 counts (selectAux counts best (some bs) l) ≤ permScore10 counts q)
      ∧ permScore10 counts (selectAux counts best (some bs) l) ≤ bs
      ∧ (selectAux counts best (some bs) l = best ∨
          ∃ l1 l2, l = l1 ++ selectAux counts best (some bs) l :: l2
            ∧ (∀ q ∈ l1, permScore10 counts (selectAux counts best (some bs) l)
                < permScore10 counts q)
            ∧ permScore10 counts (selectAux counts best (some bs) l) < bs) := by
  intro l
  induction l with
  | nil =>
    intro best bs hbs
    refine ⟨by simp, ?_, Or.inl rfl⟩
    simp only [selectAux]
    exact le_of_eq hbs
  | cons p rest ih =>
    intro best bs hbs
    by_cases hlt : permScore10 counts p < bs
    · have hstep : selectAux counts best (some bs) (p :: rest)
          = selectAux counts p (some (permScore10 counts p)) rest := by
        simp only [selectAux, hlt, if_true]
      obtain ⟨hmin, hle, hpos⟩ := ih p (permScore10 counts p) rfl
      rw [hstep]
      refine ⟨?_, ?_, ?_⟩
      · intro q hq
        rcases List.mem_cons.mp hq with rfl | hq
        · exact hle
        · exact hmin q hq
      · exact le_of_lt (lt_of_le_of_lt hle hlt)
      · right
        rcases hpos with heq | ⟨l1, l2, hsplit, hstrict, hsb⟩
        · refine ⟨[], rest, ?_, by simp, ?_⟩
          · rw [heq]; simp
          · rw [heq]; exact hlt
        · refine ⟨p :: l1, l2, ?_, ?_, lt_trans hsb hlt⟩
          · rw [List.cons_append]; exact congrArg (List.cons p) hsplit
          · intro q hq
            rcases List.mem_cons.mp hq with rfl | hq
            · exact hsb
            · exact hstrict q hq
    · have hstep : selectAux counts best (some bs) (p :: rest)
          = selectAux counts best (some bs) rest := by
        simp only [selectAux, hlt, if_false]
      obtain ⟨hmin, hle, hpos⟩ := ih best bs hbs
      rw [hstep]
      have hbsp : bs ≤ permScore10 counts p := le_of_not_lt hlt
      refine ⟨?_, hle, ?_⟩
      · intro q hq
        rcases List.mem_cons.mp hq with rfl | hq
        · exact le_trans hle hbsp
        · exact hmin q hq
      · rcases hpos with heq | ⟨l1, l2, hsplit, hstrict, hsb⟩
        · exact Or.inl heq
        · refine Or.inr ⟨p :: l1, l2, ?_, ?_, hsb⟩
          · rw [List.cons_append]; exact congrArg (List.cons p) hsplit
          · intro q hq
            rcases List.mem_cons.mp hq with rfl | hq
            · exact lt_of_lt_of_le hsb hbsp
            · exact hstrict q hq

theorem selectBest_cons (counts : List (List Nat)) (p : List Nat)
    (rest : List (List Nat)) :
    selectBest counts (p :: rest)
      = selectAux counts p (some (permScore10 counts p)) rest := by
  simp only [selectBest, List.headD, selectAux]

theorem selectBest_first_argmin (counts : List (List Nat)) (p : List Nat)
    (rest : List (List Nat)) :
    (∀ q ∈ p :: rest,
        permScore10 counts (selectBest counts (p :: rest)) ≤ permScore10 counts q)
    ∧ ∃ l1 l2, p :: rest = l1 ++ selectBest counts (p :: rest) :: l2
        ∧ ∀ q ∈ l1,
            permScore10 counts (selectBest counts (p :: rest)) < permScore10 counts q := by
  rw [selectBest_cons]
  obtain ⟨hmin, hle, hpos⟩ := selectAux_spec counts rest p (permScore10 counts p) rfl
  refine ⟨?_, ?_⟩
  · intro q hq
    rcases List.mem_cons.mp hq with rfl | hq
    · exact hle
    · exact hmin q hq
  · rcases hpos with heq | ⟨l1, l2, hsplit, hstrict, hsb⟩
    · refine ⟨[], rest, ?_, by simp⟩
      rw [heq]; simp
    · refine ⟨p :: l1, l2, ?_, ?_⟩
      · rw [List.cons_append]; exact congrArg (List.cons p) hsplit
      · intro q hq
        rcases List.mem_cons.mp hq with rfl | hq
        · exact hsb
        · exact hstrict q hq

theorem selectBest_mem (counts : List (List Nat)) (p : List Nat)
    (rest : List (List Nat)) : selectBest counts (p :: rest) ∈ p :: rest := by
  obtain ⟨-, l1, l2, hsplit, -⟩ := selectBest_first_argmin counts p rest
  have h2 : selectBest counts (p :: rest) ∈ l1 ++ selectBest counts (p :: rest) :: l2 :=
    List.mem_append.mpr (Or.inr (List.mem_cons_self _ _))
  have hgen : ∀ s : List (List Nat),
      s = l1 ++ selectBest counts (p :: rest) :: l2 →
      selectBest counts (p :: rest) ∈ s := by
    intro s hs
    rw [hs]
    exact h2
  exact hgen (p :: rest) hsplit

theorem selectAux_const (counts : List (List Nat)) :
    ∀ (l : List (List Nat)) (best : List Nat) (bs : Nat),
      (∀ q ∈ l, bs ≤ permScore10 counts q) →
      selectAux counts best (some bs) l = best := by
  intro l
  induction l with
  | nil => intro best bs _; rfl
  | cons p rest ih =>
    intro best bs hge
    have hnlt : ¬ permScore10 counts p < bs :=
      not_lt_of_ge (hge p (List.mem_cons_self _ _))
    simp only [selectAux, hnlt, if_false]
    exact ih best bs (fun q hq => hge q (List.mem_cons_of_mem _ hq))

theorem selectBest_all_tied (counts : List (List Nat)) (p : List Nat)
    (rest : List (List Nat))
    (h : ∀ q ∈ rest, permScore10 counts p ≤ permScore10 counts q) :
    selectBest counts (p :: rest) = p := by
  rw [selectBest_cons]
  exact selectAux_const counts rest p (permScore10 counts p) h


theorem findOffWorker_mod (wi dow : Nat) :
    findOffWorker wi dow = findOffWorker (wi % 4) dow := by
  unfold findOffWorker
  have hr : (List.range 4) = [0, 1, 2, 3] := rfl
  rw [hr]
  simp only [List.find?]
  rw [(by omega : (0 + wi) % 4 = (0 + wi % 4) % 4),
      (by omega : (1 + wi) % 4 = (1 + wi % 4) % 4),
      (by omega : (2 + wi) % 4 = (2 + wi % 4) % 4),
      (by omega : (3 + wi) % 4 = (3 + wi % 4) % 4)]

theorem matchingWorkers_mod (wi dow : Nat) :
    matchingWorkers wi dow = matchingWorkers (wi % 4) dow := by
  unfold matchingWorkers
  have hr : (List.range 4) = [0, 1, 2, 3] := rfl
  rw [hr]
  simp only [List.filter]
  rw [(by omega : (0 + wi) % 4 = (0 + wi % 4) % 4),
      (by omega : (1 + wi) % 4 = (1 + wi % 4) % 4),
      (by omega : (2 + wi) % 4 = (2 + wi % 4) % 4),
      (by omega : (3 + wi) % 4 = (3 + wi % 4) % 4)]

theorem findOffWorker_bounds (wi dow : Nat) (hdow : dow < 7) :
    0 ≤ findOffWorker wi dow ∧ findOffWorker wi dow < 4 := by
  rw [findOffWorker_mod]
  rcases (by omega : wi % 4 = 0 ∨ wi % 4 = 1 ∨ wi % 4 = 2 ∨ wi % 4 = 3) with h | h | h | h <;>
    rw [h] <;> interval_cases dow <;> decide

theorem findOffWorker_eq_iff (wi dow w : Nat) (hdow : dow < 7) (hw : w < 4) :
    findOffWorker wi dow = (w : Int) ↔ dow ∈ OFF_PATTERNS.getD ((w + wi) % 4) [] := by
  rw [findOffWorker_mod, (by omega : (w + wi) % 4 = (w + wi % 4) % 4)]
  rcases (by omega : wi % 4 = 0 ∨ wi % 4 = 1 ∨ wi % 4 = 2 ∨ wi % 4 = 3) with h | h | h | h <;>
    rw [h] <;> interval_cases dow <;> interval_cases w <;> decide

theorem matchingWorkers_length_one (wi dow : Nat) (hdow : dow < 7) :
    (matchingWorkers wi dow).length = 1 := by
  rw [matchingWorkers_mod]
  rcases (by omega : wi % 4 = 0 ∨ wi % 4 = 1 ∨ wi % 4 = 2 ∨ wi % 4 = 3) with h | h | h | h <;>
    rw [h] <;> interval_cases dow <;> decide


theorem groupWeeksAux_flatten : ∀ (l : List Day) (ws : List (List Day)) (cur : List Day),
    (groupWeeksAux ws cur l).flatten = ws.flatten ++ cur ++ l := by
  intro l
  induction l with
  | nil =>
    intro ws cur
    by_cases h : cur = []
    · simp [groupWeeksAux, h]
    · simp [groupWeeksAux, h]
  | cons day rest ih =>
    intro ws cur
    by_cases h : day.dayOfWeek = 0 ∧ cur ≠ []
    · simp only [groupWeeksAux, if_pos h]
      rw [ih]
      simp
    · simp only [groupWeeksAux, if_neg h]
      rw [ih]
      simp

theorem groupWeeksAux_ne_nil : ∀ (l : List Day) (ws : List (List Day)) (cur : List Day),
    (∀ w ∈ ws, w ≠ []) → ∀ w ∈ groupWeeksAux ws cur l, w ≠ [] := by
  intro l
  induction l with
  | nil =>
    intro ws cur hws w hw
    by_cases h : cur = []
    · rw [groupWeeksAux, if_pos h] at hw
      exact hws w hw
    · rw [groupWeeksAux, if_neg h] at hw
      rcases List.mem_append.mp hw with h1 | h1
      · exact hws w h1
      · rw [List.mem_singleton] at h1
        exact h1 ▸ h
  | cons day rest ih =>
    intro ws cur hws w hw
    by_cases h : day.dayOfWeek = 0 ∧ cur ≠ []
    · rw [groupWeeksAux, if_pos h] at hw
      refine ih (ws ++ [cur]) [day] ?_ w hw
      intro v hv
      rcases List.mem_append.mp hv with h1 | h1
      · exact hws v h1
      · rw [List.mem_singleton] at h1
        exact h1 ▸ h.2
    · rw [groupWeeksAux, if_neg h] at hw
      exact ih ws (cur ++ [day]) hws w hw

theorem groupWeeksAux_tail_no_sunday :
    ∀ (l : List Day) (ws : List (List Day)) (cur : List Day),
    (∀ w ∈ ws, ∀ d ∈ w.tail, d.dayOfWeek ≠ 0) →
    (∀ d ∈ cur.tail, d.dayOfWeek ≠ 0) →
    ∀ w ∈ groupWeeksAux ws cur l, ∀ d ∈ w.tail, d.dayOfWeek ≠ 0 := by
  intro l
  induction l with
  | nil =>
    intro ws cur hws hcur w hw
    by_cases h : cur = []
    · rw [groupWeeksAux, if_pos h] at hw
      exact hws w hw
    · rw [groupWeeksAux, if_neg h] at hw
      rcases List.mem_append.mp hw with h1 | h1
      · exact hws w h1
      · rw [List.mem_singleton] at h1
        exact h1 ▸ hcur
  | cons day rest ih =>
    intro ws cur hws hcur w hw
    by_cases h : day.dayOfWeek = 0 ∧ cur ≠ []
    · rw [groupWeeksAux, if_pos h] at hw
      refine ih (ws ++ [cur]) [day] ?_ ?_ w hw
      · intro v hv
        rcases List.mem_append.mp hv with h1 | h1
        · exact hws v h1
        · rw [List.mem_singleton] at h1
          exact h1 ▸ hcur
      · intro d hd
        simp at hd
    · rw [groupWeeksAux, if_neg h] at hw
      refine ih ws (cur ++ [day]) hws ?_ w hw
      intro d hd
      match cur, hd with
      | [], hd => simp at hd
      | c :: cs, hd =>
        rw [List.cons_append, List.tail_cons] at hd
        rcases List.mem_append.mp hd with h1 | h1
        · exact hcur d h1
        · rw [List.mem_singleton] at h1
          subst h1
          intro hdow
          exact h ⟨hdow, by simp⟩

theorem groupWeeksAux_later_head_sunday :
    ∀ (l : List Day) (ws : List (List Day)) (cur : List Day),
    (∀ w ∈ ws.tail, (w.headD ⟨0, 0⟩).dayOfWeek = 0) →
    (ws ≠ [] → cur ≠ [] ∧ (cur.headD ⟨0, 0⟩).dayOfWeek = 0) →
    ∀ w ∈ (groupWeeksAux ws cur l).tail, (w.headD ⟨0, 0⟩).dayOfWeek = 0 := by
  intro l
  induction l with
  | nil =>
    intro ws cur hws hcur w hw
    by_cases h : cur = []
    · rw [groupWeeksAux, if_pos h] at hw
      exact hws w hw
    · rw [groupWeeksAux, if_neg h] at hw
      match ws, hw with
      | [], hw =>
        rw [List.nil_append, List.tail_cons] at hw
        simp at hw
      | a :: ws', hw =>
        rw [List.cons_append, List.tail_cons] at hw
        rcases List.mem_append.mp hw with h1 | h1
        · exact hws w (by rw [List.tail_cons]; exact h1)
        · rw [List.mem_singleton] at h1
          exact h1 ▸ (hcur (by simp)).2
  | cons day rest ih =>
    intro ws cur hws hcur w hw
    by_cases h : day.dayOfWeek = 0 ∧ cur ≠ []
    · rw [groupWeeksAux, if_pos h] at hw
      refine ih (ws ++ [cur]) [day] ?_ ?_ w hw
      · intro v hv
        match ws, hv with
        | [], hv =>
          rw [List.nil_append, List.tail_cons] at hv
          simp at hv
        | a :: ws', hv =>
          rw [List.cons_append, List.tail_cons] at hv
          rcases List.mem_append.mp hv with h1 | h1
          · exact hws v (by rw [List.tail_cons]; exact h1)
          · rw [List.mem_singleton] at h1
            exact h1 ▸ (hcur (by simp)).2
      · intro _
        exact ⟨by simp, by simpa using h.1⟩
    · rw [groupWeeksAux, if_neg h] at hw
      refine ih ws (cur ++ [day]) hws ?_ w hw
      intro hne
      obtain ⟨hcne, hchead⟩ := hcur hne
      refine ⟨by simp, ?_⟩
      match cur, hcne, hchead with
      | c :: cs, _, hchead =>
        rw [List.cons_append]
        simpa using hchead

theorem groupWeeks_flatten (days : List Day) : (groupWeeks days).flatten = days := by
  rw [groupWeeks, groupWeeksAux_flatten]
  simp

theorem groupWeeks_ne_nil (days : List Day) : ∀ w ∈ groupWeeks days, w ≠ [] :=
  groupWeeksAux_ne_nil days [] [] (by simp)

theorem groupWeeks_tail_no_sunday (days : List Day) :
    ∀ w ∈ groupWeeks days, ∀ d ∈ w.tail, d.dayOfWeek ≠ 0 :=
  groupWeeksAux_tail_no_sunday days [] [] (by simp) (by simp)

theorem groupWeeks_later_head_sunday (days : List Day) :
    ∀ w ∈ (groupWeeks days).tail, (w.headD ⟨0, 0⟩).dayOfWeek = 0 :=
  groupWeeksAux_later_head_sunday days [] [] (by simp) (by simp)


theorem processDay_sched (wi : Nat) (st : GenState) (day : Day) :
    (processDay wi st day).sched
      = st.sched ++ [(day.date,
          ⟨findOffWorker wi day.dayOfWeek,
            dayShiftsOf st.counts (findOffWorker wi day.dayOfWeek)⟩)] := rfl

theorem foldl_nested_eq_pairs (idxs : List Nat) (g : Nat → List Day) :
    ∀ st : GenState,
    idxs.foldl (fun st wi => (g wi).foldl (processDay wi) st) st
      = (idxs.flatMap (fun wi => (g wi).map (fun d => (wi, d)))).foldl
          (fun st q => processDay q.1 st q.2) st := by
  induction idxs with
  | nil => intro st; rfl
  | cons wi idxs ih =>
    intro st
    rw [List.foldl_cons, List.flatMap_cons, List.foldl_append, ih]
    congr 1
    rw [List.foldl_map]

theorem generateSchedule_eq_pairs (y m : Nat) :
    generateSchedule y m
      = ((schedulePairs y m).foldl (fun st q => processDay q.1 st q.2)
          ⟨initialCounts, []⟩).sched := by
  rw [generateSchedule, schedulePairs, foldl_nested_eq_pairs]

theorem foldl_sched_keys :
    ∀ (ps : List (Nat × Day)) (st : GenState),
    ((ps.foldl (fun st q => processDay q.1 st q.2) st).sched).map Prod.fst
      = st.sched.map Prod.fst ++ ps.map (fun q => q.2.date) := by
  intro ps
  induction ps with
  | nil => intro st; simp
  | cons q ps ih =>
    intro st
    rw [List.foldl_cons, ih, processDay_sched]
    simp

theorem foldl_sched_off :
    ∀ (ps : List (Nat × Day)) (st : GenState),
    ((ps.foldl (fun st q => processDay q.1 st q.2) st).sched).map (fun e => (e.1, e.2.off))
      = st.sched.map (fun e => (e.1, e.2.off))
        ++ ps.map (fun q => (q.2.date, findOffWorker q.1 q.2.dayOfWeek)) := by
  intro ps
  induction ps with
  | nil => intro st; simp
  | cons q ps ih =>
    intro st
    rw [List.foldl_cons, ih, processDay_sched]
    simp


theorem workingWorkers_explicit (off : Int) (h0 : 0 ≤ off) (h4 : off < 4) :
    ∃ a b c : Nat, workingWorkers off = [a, b, c] ∧ a < b ∧ b < c := by
  interval_cases off
  · exact ⟨1, 2, 3, rfl, by omega, by omega⟩
  · exact ⟨0, 2, 3, rfl, by omega, by omega⟩
  · exact ⟨0, 1, 3, rfl, by omega, by omega⟩
  · exact ⟨0, 1, 2, rfl, by omega, by omega⟩

theorem selectBest_perm_triple (counts : List (List Nat)) (a b c : Nat) :
    ∃ x y z : Nat, selectBest counts (permutations [a, b, c]) = [x, y, z]
      ∧ ([x, y, z] : List Nat).Perm [a, b, c] := by
  have hmem : selectBest counts (permutations [a, b, c]) ∈ permutations [a, b, c] := by
    rw [permutations_triple]
    exact selectBest_mem counts [a, b, c]
      [[a, c, b], [b, a, c], [b, c, a], [c, a, b], [c, b, a]]
  have hperm : (selectBest counts (permutations [a, b, c])).Perm [a, b, c] :=
    permutations_perm [a, b, c] _ hmem
  have hlen : (selectBest counts (permutations [a, b, c])).length = 3 := by
    rw [hperm.length_eq]; rfl
  obtain ⟨x, y, z, hxyz⟩ := List.length_eq_three.mp hlen
  exact ⟨x, y, z, hxyz, hxyz ▸ hperm⟩

theorem dayShifts_ok (counts : List (List Nat)) (off : Int)
    (h0 : 0 ≤ off) (h4 : off < 4) :
    (dayShiftsOf counts off).map Prod.snd = [7, 9, 13]
    ∧ ((dayShiftsOf counts off).map Prod.fst).Perm (workingWorkers off) := by
  obtain ⟨a, b, c, hw, -, -⟩ := workingWorkers_explicit off h0 h4
  obtain ⟨x, y, z, hsel, hperm⟩ := selectBest_perm_triple counts a b c
  have hshifts : dayShiftsOf counts off = [(x, 7), (y, 9), (z, 13)] := by
    rw [dayShiftsOf, hw, hsel]
    rfl
  rw [hshifts, hw]
  exact ⟨rfl, hperm⟩

theorem foldl_sched_ok :
    ∀ (ps : List (Nat × Day)) (st : GenState),
    (∀ e ∈ st.sched, DayOK e) → (∀ q ∈ ps, q.2.dayOfWeek < 7) →
    ∀ e ∈ (ps.foldl (fun st q => processDay q.1 st q.2) st).sched, DayOK e := by
  intro ps
  induction ps with
  | nil => intro st hst _ e he; exact hst e he
  | cons q ps ih =>
    intro st hst hdow e he
    rw [List.foldl_cons] at he
    refine ih (processDay q.1 st q.2) ?_ (fun r hr => hdow r (List.mem_cons_of_mem _ hr)) e he
    intro e' he'
    rw [processDay_sched] at he'
    rcases List.mem_append.mp he' with h1 | h1
    · exact hst e' h1
    · rw [List.mem_singleton] at h1
      subst h1
      have hd7 : q.2.dayOfWeek < 7 := hdow q (List.mem_cons_self _ _)
      obtain ⟨hb0, hb4⟩ := findOffWorker_bounds q.1 q.2.dayOfWeek hd7
      obtain ⟨hsnd, hfst⟩ := dayShifts_ok st.counts (findOffWorker q.1 q.2.dayOfWeek) hb0 hb4
      exact ⟨hb0, hb4, hsnd, hfst⟩


theorem buildDays_dow_lt (y m : Nat) : ∀ d ∈ buildDays y m, d.dayOfWeek < 7 := by
  intro d hd
  rw [buildDays] at hd
  obtain ⟨i, -, rfl⟩ := List.mem_map.mp hd
  exact Nat.mod_lt _ (by omega)

theorem range_flatMap_getD {α : Type} : ∀ (L : List (List α)),
    (List.range L.length).flatMap (fun i => L.getD i []) = L.flatten := by
  intro L
  induction L with
  | nil => rfl
  | cons hd tl ih =>
    rw [List.length_cons, List.range_succ_eq_map, List.flatMap_cons]
    have h2 : (List.map (fun i => i + 1) (List.range tl.length)).flatMap
        (fun i => (hd :: tl).getD i []) = (List.range tl.length).flatMap (fun i => tl.getD i []) := by
      rw [List.flatMap_map]
      rfl
    rw [h2, ih]
    rfl

theorem getD_map_list {α β : Type} (f : α → β) :
    ∀ (L : List (List α)) (i : Nat),
    (L.map (List.map f)).getD i [] = (L.getD i []).map f := by
  intro L
  induction L with
  | nil => intro i; cases i <;> rfl
  | cons hd tl ih =>
    intro i
    cases i with
    | zero => rfl
    | succ j => exact ih j

theorem schedulePairs_mem_day (y m : Nat) (q : Nat × Day) (hq : q ∈ schedulePairs y m) :
    q.2 ∈ buildDays y m := by
  rw [schedulePairs] at hq
  simp only [List.mem_flatMap, List.mem_range, List.mem_map] at hq
  obtain ⟨wi, hwi, d, hd, rfl⟩ := hq
  have hgetd : (groupWeeks (buildDays y m)).getD wi []
      = (groupWeeks (buildDays y m))[wi] := by
    rw [List.getD_eq_getElem?_getD, List.getElem?_eq_getElem hwi]
    rfl
  have hweek : (groupWeeks (buildDays y m)).getD wi [] ∈ groupWeeks (buildDays y m) := by
    rw [hgetd]
    exact List.getElem_mem hwi
  have : d ∈ (groupWeeks (buildDays y m)).flatten :=
    List.mem_flatten.mpr ⟨_, hweek, hd⟩
  rwa [groupWeeks_flatten] at this

theorem schedulePairs_dates (y m : Nat) :
    (schedulePairs y m).map (fun q => q.2.date) = (buildDays y m).map Day.date := by
  rw [schedulePairs, List.map_flatMap]
  have h1 : ∀ wi : Nat,
      (((groupWeeks (buildDays y m)).getD wi []).map (fun d => (wi, d))).map
          (fun q : Nat × Day => q.2.date)
        = ((groupWeeks (buildDays y m)).map (List.map Day.date)).getD wi [] := by
    intro wi
    rw [List.map_map, getD_map_list]
    rfl
  simp only [h1]
  have h2 : (groupWeeks (buildDays y m)).length
      = ((groupWeeks (buildDays y m)).map (List.map Day.date)).length := by
    rw [List.length_map]
  rw [h2, range_flatMap_getD]
  rw [← List.map_flatten, groupWeeks_flatten]

theorem buildDays_dates (y m : Nat) :
    (buildDays y m).map Day.date = (List.range (daysInMonth y m)).map (fun i => i + 1) := by
  rw [buildDays, List.map_map]
  rfl

theorem buildDays_dates_nodup (y m : Nat) : ((buildDays y m).map Day.date).Nodup := by
  rw [buildDays_dates]
  exact (List.nodup_range _).map (fun a b h => by omega)

theorem lookup_map_value {α β : Type} (f : α → β) :
    ∀ (l : List (Nat × α)) (k : Nat),
    (l.map (fun e => (e.1, f e.2))).lookup k = (l.lookup k).map f := by
  intro l
  induction l with
  | nil => intro k; rfl
  | cons e l ih =>
    intro k
    cases e with
    | mk k' v =>
      simp only [List.map_cons, List.lookup]
      cases hbe : k == k'
      · simp only [ih]
      · rfl

theorem lookup_of_mem_nodup {α : Type} :
    ∀ (l : List (Nat × α)) (k : Nat) (v : α),
    (k, v) ∈ l → (l.map Prod.fst).Nodup → l.lookup k = some v := by
  intro l
  induction l with
  | nil => intro k v h _; simp at h
  | cons e l ih =>
    intro k v hmem hnd
    cases e with
    | mk k' v' =>
      rw [List.map_cons] at hnd
      have hnd1 := List.nodup_cons.mp hnd
      rcases List.mem_cons.mp hmem with heq | hmem'
      · have hkk : k = k' ∧ v = v' := Prod.mk.injEq .. ▸ heq
        obtain ⟨rfl, rfl⟩ := hkk
        simp [List.lookup]
      · have hk : (k == k') = false := by
          refine beq_eq_false_iff_ne.mpr ?_
          intro rfl
          exact hnd1.1 (List.mem_map.mpr ⟨(k, v), hmem', rfl⟩)
        simp only [List.lookup, hk]
        exact ih k v hmem' hnd1.2


theorem foldl_min_le (t : List Nat) : ∀ h : Nat, t.foldl Nat.min h ≤ h := by
  induction t with
  | nil => intro h; exact le_refl h
  | cons a t ih =>
    intro h
    rw [List.foldl_cons]
    exact le_trans (ih (Nat.min h a)) (Nat.min_le_left h a)

theorem le_foldl_max (t : List Nat) : ∀ h : Nat, h ≤ t.foldl Nat.max h := by
  induction t with
  | nil => intro h; exact le_refl h
  | cons a t ih =>
    intro h
    rw [List.foldl_cons]
    exact le_trans (Nat.le_max_left h a) (ih (Nat.max h a))

theorem mathMin_le_mathMax (l : List Nat) : mathMin l ≤ mathMax l := by
  cases l with
  | nil => exact le_refl 0
  | cons h t => exact le_trans (foldl_min_le t h) (le_foldl_max t h)

theorem permScoreQ_eq_scaled (counts : List (List Nat)) (perm : List Nat) :
    permScoreQ counts perm = (permScore10 counts perm : ℚ) / 10 := by
  have hc : ∀ w : Nat, ((mathMax (counts.getD w []) - mathMin (counts.getD w []) : Nat) : ℚ)
      = (mathMax (counts.getD w []) : ℚ) - (mathMin (counts.getD w []) : ℚ) :=
    fun w => Nat.cast_sub (mathMin_le_mathMax _)
  have hr3 : List.range 3 = [0, 1, 2] := rfl
  rw [eq_div_iff (by norm_num : (10 : ℚ) ≠ 0)]
  unfold permScoreQ permScore10
  rw [hr3]
  simp only [List.foldl_cons, List.foldl_nil]
  push_cast [hc]
  ring

theorem permScoreQ_lt_iff (counts : List (List Nat)) (p q : List Nat) :
    permScoreQ counts p < permScoreQ counts q
      ↔ permScore10 counts p < permScore10 counts q := by
  rw [permScoreQ_eq_scaled, permScoreQ_eq_scaled,
    div_lt_div_iff_of_pos_right (by norm_num : (0 : ℚ) < 10), Nat.cast_lt]

theorem permScoreQ_le_iff (counts : List (List Nat)) (p q : List Nat) :
    permScoreQ counts p ≤ permScoreQ counts q
      ↔ permScore10 counts p ≤ permScore10 counts q := by
  rw [permScoreQ_eq_scaled, permScoreQ_eq_scaled,
    div_le_div_iff_of_pos_right (by norm_num : (0 : ℚ) < 10), Nat.cast_le]

theorem permScoreQ_eq_iff (counts : List (List Nat)) (p q : List Nat) :
    permScoreQ counts p = permScoreQ counts q
      ↔ permScore10 counts p = permScore10 counts q := by
  constructor
  · intro h
    exact le_antisymm ((permScoreQ_le_iff counts p q).mp (le_of_eq h))
      ((permScoreQ_le_iff counts q p).mp (le_of_eq h.symm))
  · intro h
    rw [permScoreQ_eq_scaled, permScoreQ_eq_scaled, h]

theorem permScoreQ_formula (counts : List (List Nat)) (p q r : Nat) :
    permScoreQ counts [p, q, r]
      = ((shiftCountOf counts p 0 : ℚ) + shiftCountOf counts q 1 + shiftCountOf counts r 2)
        + ((spreadOf counts p : ℚ) + spreadOf counts q + spreadOf counts r) * (1 / 10) := by
  have hc : ∀ w : Nat, ((spreadOf counts w : ℚ))
      = (mathMax (counts.getD w []) : ℚ) - (mathMin (counts.getD w []) : ℚ) := by
    intro w
    rw [spreadOf, Nat.cast_sub (mathMin_le_mathMax _)]
  have hr3 : List.range 3 = [0, 1, 2] := rfl
  rw [hc, hc, hc]
  unfold permScoreQ shiftCountOf
  rw [hr3]
  simp only [List.foldl_cons, List.foldl_nil, List.getD_cons_zero, List.getD_cons_succ]
  ring


theorem schedulePairs_dow_lt (y m : Nat) :
    ∀ q ∈ schedulePairs y m, q.2.dayOfWeek < 7 :=
  fun q hq => buildDays_dow_lt y m q.2 (schedulePairs_mem_day y m q hq)

/-- Every committed entry of every generated schedule satisfies the day invariant. -/
theorem generateSchedule_ok (y m : Nat) :
    ∀ e ∈ generateSchedule y m, DayOK e := by
  intro e he
  rw [generateSchedule_eq_pairs] at he
  exact foldl_sched_ok (schedulePairs y m) ⟨initialCounts, []⟩
    (by intro e' he'; simp at he') (schedulePairs_dow_lt y m) e he

theorem workingWorkers_sorted (off : Int) : (workingWorkers off).Pairwise (· < ·) :=
  List.Pairwise.filter _ (by decide)

theorem workingWorkers_nodup (off : Int) : (workingWorkers off).Nodup :=
  (workingWorkers_sorted off).imp Nat.ne_of_lt


/-- C1: for every schedule returned by `generateSchedule` and every day entry in it,
exactly one worker index in {0,1,2,3} is marked off, and the three remaining worker
indices each receive a distinct shift from {7,9,13}: the committed shift values are
exactly `[7, 9, 13]` and the workers holding them are exactly the three non-off
workers, with no duplicate and no omission. -/
theorem C1_day_invariant (y m : Nat) (e : Nat × DaySchedule)
    (he : e ∈ generateSchedule y m) :
    (0 ≤ e.2.off ∧ e.2.off < 4)
    ∧ e.2.shifts.map Prod.snd = [7, 9, 13]
    ∧ (e.2.shifts.map Prod.fst).Perm (workingWorkers e.2.off)
    ∧ (e.2.shifts.map Prod.fst).Nodup := by
  obtain ⟨h0, h4, hsnd, hfst⟩ := generateSchedule_ok y m e he
  exact ⟨⟨h0, h4⟩, hsnd, hfst, hfst.nodup_iff.mpr (workingWorkers_nodup _)⟩

/-- Witness for C1 at a concrete entry of the February 2026 schedule. -/
theorem C1_day_invariant_witness :
    (((1 : Nat), (⟨0, [(1, 7), (2, 9), (3, 13)]⟩ : DaySchedule)) ∈ generateSchedule 2026 2)
    ∧ ((0 ≤ (0 : Int) ∧ (0 : Int) < 4)
        ∧ ([(1, 7), (2, 9), (3, 13)] : List (Nat × Nat)).map Prod.snd = [7, 9, 13]
        ∧ (([(1, 7), (2, 9), (3, 13)] : List (Nat × Nat)).map Prod.fst).Perm (workingWorkers 0)
        ∧ (([(1, 7), (2, 9), (3, 13)] : List (Nat × Nat)).map Prod.fst).Nodup) :=
  ⟨by decide, C1_day_invariant 2026 2 ((1 : Nat), (⟨0, [(1, 7), (2, 9), (3, 13)]⟩ : DaySchedule)) (by decide)⟩

/-- C4: the calendar partitioner produces the days 1..daysInMonth each tagged with
its day-of-week, and groups them into weeks so that the weeks concatenate back to
the original day sequence (every day in exactly one week, in order), every week is
non-empty, a Sunday can only sit at the head of a week, and every week after the
first begins with a Sunday (the first may not, when the month starts mid-week). -/
theorem C4_calendar_partition (y m : Nat) (_hm1 : 1 ≤ m) (_hm2 : m ≤ 12) :
    buildDays y m
        = (List.range (daysInMonth y m)).map (fun i => ⟨i + 1, dayOfWeek y m (i + 1)⟩)
    ∧ (groupWeeks (buildDays y m)).flatten = buildDays y m
    ∧ (∀ wk ∈ groupWeeks (buildDays y m), wk ≠ [])
    ∧ (∀ wk ∈ groupWeeks (buildDays y m), ∀ d ∈ wk.tail, d.dayOfWeek ≠ 0)
    ∧ (∀ wk ∈ (groupWeeks (buildDays y m)).tail, (wk.headD ⟨0, 0⟩).dayOfWeek = 0) :=
  ⟨rfl, groupWeeks_flatten _, groupWeeks_ne_nil _, groupWeeks_tail_no_sunday _,
    groupWeeks_later_head_sunday _⟩

/-- Witness for C4 at February 2026. -/
theorem C4_calendar_partition_witness :
    1 ≤ 2 ∧ 2 ≤ 12
    ∧ (buildDays 2026 2
          = (List.range (daysInMonth 2026 2)).map (fun i => ⟨i + 1, dayOfWeek 2026 2 (i + 1)⟩)
        ∧ (groupWeeks (buildDays 2026 2)).flatten = buildDays 2026 2
        ∧ (∀ wk ∈ groupWeeks (buildDays 2026 2), wk ≠ [])
        ∧ (∀ wk ∈ groupWeeks (buildDays 2026 2), ∀ d ∈ wk.tail, d.dayOfWeek ≠ 0)
        ∧ (∀ wk ∈ (groupWeeks (buildDays 2026 2)).tail, (wk.headD ⟨0, 0⟩).dayOfWeek = 0)) :=
  ⟨by decide, by decide, C4_calendar_partition 2026 2 (by decide) (by decide)⟩

/-- C5: for every well-formed input (any year, month in 1..12), `generateSchedule`
is total and returns a schedule whose keys are exactly the day numbers
1..daysInMonth in order — one entry per day, no gaps, no extras. -/
theorem C5_complete_schedule (y m : Nat) (_hm1 : 1 ≤ m) (_hm2 : m ≤ 12) :
    (generateSchedule y m).map Prod.fst
      = (List.range (daysInMonth y m)).map (fun i => i + 1) := by
  rw [generateSchedule_eq_pairs, foldl_sched_keys]
  rw [show (⟨initialCounts, []⟩ : GenState).sched = [] from rfl]
  rw [List.map_nil, List.nil_append, schedulePairs_dates, buildDays_dates]

/-- Witness for C5 at February 2026 (28 entries, keys 1..28). -/
theorem C5_complete_schedule_witness :
    1 ≤ 2 ∧ 2 ≤ 12
    ∧ (generateSchedule 2026 2).map Prod.fst
        = (List.range (daysInMonth 2026 2)).map (fun i => i + 1) :=
  ⟨by decide, by decide, C5_complete_schedule 2026 2 (by decide) (by decide)⟩

/-- C8: `generateSchedule` is deterministic — two calls with identical `(year, month)`
inputs return identical schedules.  In this embedding the shift-count state is
created fresh inside each call (`initialCounts` in `generateSchedule`) and no state
flows between calls, so the result is a pure function of the inputs. -/
theorem C8_deterministic (y1 m1 y2 m2 : Nat) (hy : y1 = y2) (hm : m1 = m2) :
    generateSchedule y1 m1 = generateSchedule y2 m2 := by
  rw [hy, hm]

/-- Witness for C8 at February 2026. -/
theorem C8_deterministic_witness :
    2026 = 2026 ∧ 2 = 2 ∧ generateSchedule 2026 2 = generateSchedule 2026 2 :=
  ⟨rfl, rfl, C8_deterministic 2026 2 2026 2 rfl rfl⟩

/-- C9: for every week index and every day-of-week value 0..6, the off-worker scan
finds a worker in 0..3 (the four patterns partition the seven days and the four
roles are a permutation of {0,1,2,3}), exactly one worker matches, and consequently
the sentinel `-1` never appears as the off worker of a committed schedule entry. -/
theorem C9_off_scan_safe :
    (∀ wi dow : Nat, dow < 7 →
      (0 ≤ findOffWorker wi dow ∧ findOffWorker wi dow < 4)
        ∧ (matchingWorkers wi dow).length = 1)
    ∧ (∀ y m : Nat, ∀ e ∈ generateSchedule y m, e.2.off ≠ -1) := by
  constructor
  · intro wi dow h
    exact ⟨findOffWorker_bounds wi dow h, matchingWorkers_length_one wi dow h⟩
  · intro y m e he
    obtain ⟨h0, -, -, -⟩ := generateSchedule_ok y m e he
    intro hcontra
    rw [hcontra] at h0
    exact absurd h0 (by decide)

/-- Witness for C9 at a concrete week index, day-of-week and schedule entry. -/
theorem C9_off_scan_safe_witness :
    ((0 ≤ findOffWorker 5 3 ∧ findOffWorker 5 3 < 4) ∧ (matchingWorkers 5 3).length = 1)
    ∧ (((1 : Nat), (⟨0, [(1, 7), (2, 9), (3, 13)]⟩ : DaySchedule)) : Nat × DaySchedule).2.off ≠ -1 :=
  ⟨C9_off_scan_safe.1 5 3 (by decide), C9_off_scan_safe.2 2026 2 ((1 : Nat), (⟨0, [(1, 7), (2, 9), (3, 13)]⟩ : DaySchedule)) (by decide)⟩


theorem schedulePairs_mem_of_week (y m wi : Nat) (week : List Day)
    (hweek : (groupWeeks (buildDays y m))[wi]? = some week)
    (day : Day) (hday : day ∈ week) : (wi, day) ∈ schedulePairs y m := by
  obtain ⟨hlt, hget⟩ := List.getElem?_eq_some.mp hweek
  rw [schedulePairs]
  simp only [List.mem_flatMap, List.mem_range, List.mem_map]
  refine ⟨wi, hlt, day, ?_, rfl⟩
  rw [List.getD_eq_getElem?_getD, List.getElem?_eq_getElem hlt]
  rw [hget]
  exact hday

theorem generateSchedule_off_proj (y m : Nat) :
    (generateSchedule y m).map (fun e => (e.1, e.2.off))
      = (schedulePairs y m).map (fun q => (q.2.date, findOffWorker q.1 q.2.dayOfWeek)) := by
  rw [generateSchedule_eq_pairs, foldl_sched_off]
  rfl

theorem generateSchedule_lookup_off (y m wi : Nat) (week : List Day)
    (hweek : (groupWeeks (buildDays y m))[wi]? = some week)
    (day : Day) (hday : day ∈ week) :
    ∃ ds : DaySchedule, (generateSchedule y m).lookup day.date = some ds
      ∧ ds.off = findOffWorker wi day.dayOfWeek := by
  have hpair : (wi, day) ∈ schedulePairs y m :=
    schedulePairs_mem_of_week y m wi week hweek day hday
  have hmem : (day.date, findOffWorker wi day.dayOfWeek)
      ∈ (schedulePairs y m).map (fun q => (q.2.date, findOffWorker q.1 q.2.dayOfWeek)) :=
    List.mem_map.mpr ⟨(wi, day), hpair, rfl⟩
  have hkeys : (((schedulePairs y m).map
      (fun q => (q.2.date, findOffWorker q.1 q.2.dayOfWeek))).map Prod.fst).Nodup := by
    rw [List.map_map]
    have : (Prod.fst ∘ fun q : Nat × Day => (q.2.date, findOffWorker q.1 q.2.dayOfWeek))
        = fun q : Nat × Day => q.2.date := rfl
    rw [this, schedulePairs_dates]
    exact buildDays_dates_nodup y m
  have hlook : ((schedulePairs y m).map
      (fun q => (q.2.date, findOffWorker q.1 q.2.dayOfWeek))).lookup day.date
      = some (findOffWorker wi day.dayOfWeek) :=
    lookup_of_mem_nodup _ day.date _ hmem hkeys
  rw [← generateSchedule_off_proj] at hlook
  rw [lookup_map_value (fun ds : DaySchedule => ds.off) (generateSchedule y m) day.date] at hlook
  obtain ⟨ds, hds, hoff⟩ := Option.map_eq_some'.mp hlook
  exact ⟨ds, hds, hoff⟩

/-- C2: for every week index `wi` (in generation order, the first possibly-short week
having index 0) and worker `w < 4`, the committed schedule marks `w` off on a day of
that week exactly when the day-of-week of the day lies in the off pattern of role
`(w + wi) % 4`, and on no other day of the week. -/
theorem C2_role_rotation (y m wi w : Nat) (week : List Day)
    (hweek : (groupWeeks (buildDays y m))[wi]? = some week)
    (hw : w < 4) (day : Day) (hday : day ∈ week) :
    ∃ ds : DaySchedule, (generateSchedule y m).lookup day.date = some ds
      ∧ (ds.off = (w : Int) ↔ day.dayOfWeek ∈ OFF_PATTERNS.getD ((w + wi) % 4) []) := by
  obtain ⟨ds, hds, hoff⟩ := generateSchedule_lookup_off y m wi week hweek day hday
  have hdmem : day ∈ buildDays y m := by
    obtain ⟨hlt, hget⟩ := List.getElem?_eq_some.mp hweek
    rw [← groupWeeks_flatten (buildDays y m)]
    exact List.mem_flatten.mpr ⟨week, hget ▸ List.getElem_mem hlt, hday⟩
  have hdow : day.dayOfWeek < 7 := buildDays_dow_lt y m day hdmem
  exact ⟨ds, hds, hoff ▸ findOffWorker_eq_iff wi day.dayOfWeek w hdow hw⟩

/-- Witness for C2: February 2026, week 0, worker 0, day 1 (a Sunday). -/
theorem C2_role_rotation_witness :
    ((groupWeeks (buildDays 2026 2))[0]?
        = some [⟨1, 0⟩, ⟨2, 1⟩, ⟨3, 2⟩, ⟨4, 3⟩, ⟨5, 4⟩, ⟨6, 5⟩, ⟨7, 6⟩])
    ∧ (0 : Nat) < 4
    ∧ ((⟨1, 0⟩ : Day) ∈ ([⟨1, 0⟩, ⟨2, 1⟩, ⟨3, 2⟩, ⟨4, 3⟩, ⟨5, 4⟩, ⟨6, 5⟩, ⟨7, 6⟩] : List Day))
    ∧ (∃ ds : DaySchedule, (generateSchedule 2026 2).lookup (1 : Nat) = some ds
        ∧ (ds.off = ((0 : Nat) : Int) ↔ (0 : Nat) ∈ OFF_PATTERNS.getD ((0 + 0) % 4) [])) :=
  ⟨by decide, by decide, by decide,
    C2_role_rotation 2026 2 0 0 [⟨1, 0⟩, ⟨2, 1⟩, ⟨3, 2⟩, ⟨4, 3⟩, ⟨5, 4⟩, ⟨6, 5⟩, ⟨7, 6⟩]
      (by decide) (by decide) ⟨1, 0⟩ (by decide)⟩


theorem weekOffCount_mod (w wi : Nat) : weekOffCount w wi = weekOffCount w (wi % 4) := by
  unfold weekOffCount
  exact congrArg List.length (List.filter_congr (fun dow _ => by rw [findOffWorker_mod]))

theorem weekOnCount_mod (w wi : Nat) : weekOnCount w wi = weekOnCount w (wi % 4) := by
  unfold weekOnCount
  exact congrArg List.length (List.filter_congr (fun dow _ => by rw [findOffWorker_mod]))

/-- C6: over any four full 7-day weeks with consecutive week indices, every worker
is marked off on exactly 7 days (2+2+2+1, one week in each role) and is on duty on
exactly 21 days.  Concretely, February 2026 consists of exactly four full weeks and
each worker has exactly 7 off entries in its generated schedule. -/
theorem C6_four_week_totals (k w : Nat) (hw : w < 4) :
    (weekOffCount w k + weekOffCount w (k + 1)
        + weekOffCount w (k + 2) + weekOffCount w (k + 3) = 7)
    ∧ (weekOnCount w k + weekOnCount w (k + 1)
        + weekOnCount w (k + 2) + weekOnCount w (k + 3) = 21)
    ∧ ((generateSchedule 2026 2).filter (fun e => e.2.off == (w : Int))).length = 7
    ∧ ((generateSchedule 2026 2).filter (fun e => e.2.off != (w : Int))).length = 21 := by
  have e1 : (k + 1) % 4 = (k % 4 + 1) % 4 := by omega
  have e2 : (k + 2) % 4 = (k % 4 + 2) % 4 := by omega
  have e3 : (k + 3) % 4 = (k % 4 + 3) % 4 := by omega
  rw [weekOffCount_mod w k, weekOffCount_mod w (k + 1), weekOffCount_mod w (k + 2),
    weekOffCount_mod w (k + 3), weekOnCount_mod w k, weekOnCount_mod w (k + 1),
    weekOnCount_mod w (k + 2), weekOnCount_mod w (k + 3), e1, e2, e3]
  rcases (by omega : k % 4 = 0 ∨ k % 4 = 1 ∨ k % 4 = 2 ∨ k % 4 = 3) with h | h | h | h <;>
    rw [h] <;> interval_cases w <;>
    exact ⟨by decide, by decide, by decide, by decide⟩

/-- Witness for C6 at window start 5 and worker 2. -/
theorem C6_four_week_totals_witness :
    (2 : Nat) < 4
    ∧ ((weekOffCount 2 5 + weekOffCount 2 6 + weekOffCount 2 7 + weekOffCount 2 8 = 7)
      ∧ (weekOnCount 2 5 + weekOnCount 2 6 + weekOnCount 2 7 + weekOnCount 2 8 = 21)
      ∧ ((generateSchedule 2026 2).filter (fun e => e.2.off == ((2 : Nat) : Int))).length = 7
      ∧ ((generateSchedule 2026 2).filter (fun e => e.2.off != ((2 : Nat) : Int))).length = 21) :=
  ⟨by decide, C6_four_week_totals 5 2 (by decide)⟩

/-- C7: a worker holding role 3 in week `wi` (off pattern {Saturday}) holds role 0
in week `wi + 1` (off pattern {Sunday, Monday}); the off-worker scan therefore
marks that worker off on the Saturday of week `wi` and on the Sunday and Monday of
week `wi + 1` — a 3-day consecutive rest across the week boundary. -/
theorem C7_role3_to_role0 (w wi : Nat) (hw : w < 4) (hr : (w + wi) % 4 = 3) :
    (w + (wi + 1)) % 4 = 0
    ∧ findOffWorker wi 6 = (w : Int)
    ∧ findOffWorker (wi + 1) 0 = (w : Int)
    ∧ findOffWorker (wi + 1) 1 = (w : Int) := by
  refine ⟨by omega, ?_, ?_, ?_⟩
  · exact (findOffWorker_eq_iff wi 6 w (by omega) hw).mpr (by rw [hr]; decide)
  · exact (findOffWorker_eq_iff (wi + 1) 0 w (by omega) hw).mpr
      (by rw [show (w + (wi + 1)) % 4 = 0 from by omega]; decide)
  · exact (findOffWorker_eq_iff (wi + 1) 1 w (by omega) hw).mpr
      (by rw [show (w + (wi + 1)) % 4 = 0 from by omega]; decide)

/-- Witness for C7: worker 3 holds role 3 in week 0. -/
theorem C7_role3_to_role0_witness :
    (3 : Nat) < 4 ∧ (3 + 0) % 4 = 3
    ∧ ((3 + (0 + 1)) % 4 = 0
      ∧ findOffWorker 0 6 = ((3 : Nat) : Int)
      ∧ findOffWorker (0 + 1) 0 = ((3 : Nat) : Int)
      ∧ findOffWorker (0 + 1) 1 = ((3 : Nat) : Int)) :=
  ⟨by decide, by decide, C7_role3_to_role0 3 0 (by decide) (by decide)⟩


/-- C3: per day, after removing the off worker, the assignment enumerates all six
permutations of the three candidates against the slots (7,9,13) in that order —
generated by recursively picking each remaining element in ascending index order —
scores each permutation as (sum of pre-assignment counts) + 0.1 × (sum of each
per-candidate max−min per-shift spread), and selects the strictly lowest score, the
first-enumerated permutation winning exact ties. -/
theorem C3_shift_selection (counts : List (List Nat)) (a b c : Nat) :
    permutations [a, b, c]
        = [[a, b, c], [a, c, b], [b, a, c], [b, c, a], [c, a, b], [c, b, a]]
    ∧ (∀ p q r : Nat, permScoreQ counts [p, q, r]
        = ((shiftCountOf counts p 0 : ℚ) + shiftCountOf counts q 1 + shiftCountOf counts r 2)
          + ((spreadOf counts p : ℚ) + spreadOf counts q + spreadOf counts r) * (1 / 10))
    ∧ (∃ i, i < 6
        ∧ selectBest counts (permutations [a, b, c]) = (permutations [a, b, c]).getD i []
        ∧ (∀ j, j < 6 → permScoreQ counts ((permutations [a, b, c]).getD i [])
            ≤ permScoreQ counts ((permutations [a, b, c]).getD j []))
        ∧ (∀ j, j < i → permScoreQ counts ((permutations [a, b, c]).getD i [])
            < permScoreQ counts ((permutations [a, b, c]).getD j [])))
    ∧ (∀ (st : GenState) (wi : Nat) (day : Day),
        (processDay wi st day).sched = st.sched ++ [(day.date,
          ⟨findOffWorker wi day.dayOfWeek,
            dayShiftsOf st.counts (findOffWorker wi day.dayOfWeek)⟩)])
    ∧ (∀ (cs : List (List Nat)) (off : Int), dayShiftsOf cs off
        = [((selectBest cs (permutations (workingWorkers off))).getD 0 0, 7),
           ((selectBest cs (permutations (workingWorkers off))).getD 1 0, 9),
           ((selectBest cs (permutations (workingWorkers off))).getD 2 0, 13)]) := by
  refine ⟨permutations_triple a b c, permScoreQ_formula counts, ?_,
    fun st wi day => processDay_sched wi st day, fun cs off => rfl⟩
  rw [permutations_triple]
  obtain ⟨hmin, l1, l2, hsplit, hstrict⟩ :=
    selectBest_first_argmin counts [a, b, c]
      [[a, c, b], [b, a, c], [b, c, a], [c, a, b], [c, b, a]]
  have hlen : l1.length + (l2.length + 1) = 6 := by
    have := congrArg List.length hsplit
    simpa using this.symm
  have hgetr : ∀ s : List (List Nat),
      s = l1 ++ selectBest counts ([a, b, c] ::
          [[a, c, b], [b, a, c], [b, c, a], [c, a, b], [c, b, a]]) :: l2 →
      s.getD l1.length []
        = selectBest counts ([a, b, c] ::
            [[a, c, b], [b, a, c], [b, c, a], [c, a, b], [c, b, a]]) := by
    intro s hs
    rw [hs, List.getD_eq_getElem?_getD,
      List.getElem?_append_right (le_refl l1.length), Nat.sub_self,
      List.getElem?_cons_zero]
    rfl
  have hgetj : ∀ s : List (List Nat), ∀ j : Nat,
      s = l1 ++ selectBest counts ([a, b, c] ::
          [[a, c, b], [b, a, c], [b, c, a], [c, a, b], [c, b, a]]) :: l2 →
      j < l1.length → s.getD j [] ∈ l1 := by
    intro s j hs hj1
    rw [hs, List.getD_eq_getElem?_getD, List.getElem?_append, if_pos hj1,
      List.getElem?_eq_getElem hj1]
    exact List.getElem_mem hj1
  refine ⟨l1.length, by omega, (hgetr _ hsplit).symm, ?_, ?_⟩
  · intro j hj
    have hjmem : ([[a, b, c], [a, c, b], [b, a, c], [b, c, a], [c, a, b],
        [c, b, a]] : List (List Nat)).getD j []
        ∈ ([[a, b, c], [a, c, b], [b, a, c], [b, c, a], [c, a, b],
            [c, b, a]] : List (List Nat)) := by
      have hj6 : j < ([[a, b, c], [a, c, b], [b, a, c], [b, c, a], [c, a, b],
          [c, b, a]] : List (List Nat)).length := by simpa using hj
      rw [List.getD_eq_getElem?_getD, List.getElem?_eq_getElem hj6]
      exact List.getElem_mem hj6
    rw [hgetr _ hsplit, permScoreQ_le_iff]
    exact hmin _ hjmem
  · intro j hj
    rw [hgetr _ hsplit, permScoreQ_lt_iff]
    exact hstrict _ (hgetj _ j hsplit hj)

/-- Witness for C3: the enumeration order at a concrete candidate list. -/
theorem C3_shift_selection_witness :
    permutations [1, 2, 3]
      = [[1, 2, 3], [1, 3, 2], [2, 1, 3], [2, 3, 1], [3, 1, 2], [3, 2, 1]] :=
  (C3_shift_selection initialCounts 1 2 3).1

/-- C10: on a day where all six permutations score exactly equal (in particular on
the first generated day, when all counts are zero), the three on-duty workers are
listed in ascending index order and receive shifts 7, 9, 13 in that order, because
the first enumerated permutation is the identity ordering of the candidate list. -/
theorem C10_tied_scores_identity (st : GenState) (wi : Nat) (day : Day) (a b c : Nat)
    (hwork : workingWorkers (findOffWorker wi day.dayOfWeek) = [a, b, c])
    (htied : ∀ p ∈ permutations [a, b, c],
        permScoreQ st.counts p = permScoreQ st.counts [a, b, c]) :
    (a < b ∧ b < c)
    ∧ selectBest st.counts (permutations [a, b, c]) = [a, b, c]
    ∧ (processDay wi st day).sched = st.sched ++ [(day.date,
        ⟨findOffWorker wi day.dayOfWeek, [(a, 7), (b, 9), (c, 13)]⟩)] := by
  have hsortw := workingWorkers_sorted (findOffWorker wi day.dayOfWeek)
  rw [hwork] at hsortw
  simp only [List.pairwise_cons, List.mem_cons, List.mem_singleton] at hsortw
  have hsel : selectBest st.counts (permutations [a, b, c]) = [a, b, c] := by
    rw [permutations_triple]
    refine selectBest_all_tied st.counts [a, b, c] _ ?_
    intro q hq
    have hqmem : q ∈ permutations [a, b, c] := by
      rw [permutations_triple]
      exact List.mem_cons_of_mem _ hq
    exact le_of_eq ((permScoreQ_eq_iff st.counts [a, b, c] q).mp (htied q hqmem).symm)
  have hshifts : dayShiftsOf st.counts (findOffWorker wi day.dayOfWeek)
      = [(a, 7), (b, 9), (c, 13)] := by
    unfold dayShiftsOf
    rw [hwork, hsel]
    rfl
  refine ⟨⟨hsortw.1 b (Or.inl rfl), hsortw.2.1 c (Or.inl rfl)⟩, hsel, ?_⟩
  rw [processDay_sched, hshifts]

/-- Witness for C10: the first generated day of February 2026 (all counts zero). -/
theorem C10_tied_scores_identity_witness :
    workingWorkers (findOffWorker 0 (Day.mk 1 0).dayOfWeek) = [1, 2, 3]
    ∧ ((1 < 2 ∧ 2 < 3)
      ∧ selectBest (⟨initialCounts, []⟩ : GenState).counts (permutations [1, 2, 3]) = [1, 2, 3]
      ∧ (processDay 0 (⟨initialCounts, []⟩ : GenState) (Day.mk 1 0)).sched
          = (⟨initialCounts, []⟩ : GenState).sched ++ [((Day.mk 1 0).date,
              ⟨findOffWorker 0 (Day.mk 1 0).dayOfWeek, [(1, 7), (2, 9), (3, 13)]⟩)]) :=
  ⟨by decide, C10_tied_scores_identity ⟨initialCounts, []⟩ 0 (Day.mk 1 0) 1 2 3 (by decide)
    (by
      intro p hp
      rw [permScoreQ_eq_iff]
      fin_cases hp <;> decide)⟩

end WorkSchedule
